import Mathlib

/-!
# Lumen LED firmware: the hysteretic rounding filter

A shallow embedding of `HystRound` (src/Lumen-Arduino/HystRound.cpp) and of the
constant `HYST_FACTOR` (src/Lumen-Arduino/Lumen-Arduino.h).

Modelling conventions.

* A finite `float` is a rational number that the binary32 format represents
  (`isFloat`).  Arithmetic on `float` rounds the exact result to the nearest
  binary32 value, ties to even (`fl32`): the subtraction inside `hystRound`
  is `fl32` of the exact difference.  The conversion `(float)_value` of an
  `int16_t` is exact.
* The field `_value` and the result of `hystRound` are `int16_t`.  They are
  modelled by `Int`; `isInt16` says that an integer is a value of that type and
  `toInt16` is the two's complement narrowing of a wider integer to 16 bits.
* `abs` and `round` are not defined in the repository.  They follow the
  specification: the absolute value, and rounding to the nearest integer with
  ties away from zero, in the shape of the macros of the target
  `abs(x)   = ((x)>0?(x):-(x))` and
  `round(x) = ((x)>=0?(long)((x)+0.5):(long)((x)-0.5))`.
-/

namespace Lumen

/-- The constant `HYST_FACTOR` of Lumen-Arduino.h (`0.8`). -/
def HYST_FACTOR : ℚ := 8 / 10

/-- Values of the type `int16_t`. -/
def isInt16 (z : Int) : Prop := -32768 ≤ z ∧ z ≤ 32767

instance (z : Int) : Decidable (isInt16 z) :=
  inferInstanceAs (Decidable (-32768 ≤ z ∧ z ≤ 32767))

/-- Narrowing of a wider integer to `int16_t`: reduction modulo `2^16` into
`[-32768, 32767]`. -/
def toInt16 (z : Int) : Int := (z + 32768) % 65536 - 32768

/-- Rounding of a rational number to the nearest integer, ties to the even
one. -/
def roundEven (q : ℚ) : Int :=
  if q - ⌊q⌋ < 1 / 2 then ⌊q⌋
  else if 1 / 2 < q - ⌊q⌋ then ⌊q⌋ + 1
  else if ⌊q⌋ % 2 = 0 then ⌊q⌋ else ⌊q⌋ + 1

/-- The exponent of the unit in the last place of a positive number in the
binary32 format: 24 significant bits, and `2^-149` for the subnormal
numbers. -/
def ulpExp (x : ℚ) : Int := max (Int.log 2 x - 23) (-149)

/-- Rounding of a non-negative number to the binary32 format, to nearest with
ties to even. -/
def roundMag (x : ℚ) : ℚ := (roundEven (x / 2 ^ ulpExp x) : ℚ) * 2 ^ ulpExp x

/-- Rounding of an exact result to the binary32 format, to nearest with ties to
even: the arithmetic of the type `float`.  The exponent is not bounded above;
the difference of an `int16_t` and a finite `float` does not overflow. -/
def fl32 (x : ℚ) : ℚ := if 0 ≤ x then roundMag x else -roundMag (-x)

/-- The largest finite value of the type `float`, `(2^24 - 1) * 2^104`. -/
def FLT_MAX : ℚ := 16777215 * 2 ^ 104

/-- The finite values of the type `float`: the numbers that the rounding to
the binary32 format leaves unchanged, up to the largest finite value. -/
def isFloat (x : ℚ) : Prop := fl32 x = x ∧ |x| ≤ FLT_MAX

instance (x : ℚ) : Decidable (isFloat x) :=
  inferInstanceAs (Decidable (fl32 x = x ∧ |x| ≤ FLT_MAX))

/-- Modelled from the spec: the macro `round` is not defined in the repository;
this is the cast `(long)x` inside it, truncation toward zero. -/
def castLong (x : ℚ) : Int := if x ≥ 0 then ⌊x⌋ else ⌈x⌉

/-- Modelled from the spec: the macro `abs` is not defined in the repository;
it is the absolute value of the specification's `|current_value - sample|`,
on the target `((x)>0?(x):-(x))`. -/
def abs (x : ℚ) : ℚ := if x > 0 then x else -x

/-- Modelled from the spec: the macro `round` is not defined in the repository;
it is the specification's rounding half away from zero, total over the finite
samples, on the target `((x)>=0?(long)((x)+0.5):(long)((x)-0.5))`. -/
def round (x : ℚ) : Int :=
  if x ≥ 0 then castLong (x + 1 / 2) else castLong (x - 1 / 2)

/-- Rounding to the nearest integer, ties away from zero, as the specification
words it: the mathematical `round(s)` of the claims. -/
def specRound (x : ℚ) : Int := if 0 ≤ x then ⌊x + 1 / 2⌋ else ⌈x - 1 / 2⌉

/-- Modelled from the spec: the class declaration (HystRound.h) is not among
the sources; the object state of the class `HystRound` is the two fields the
constructor assigns, with the types of its parameters. -/
structure HystRound where
  /-- The last emitted value, `int16_t _value`. -/
  _value : Int
  /-- The hysteresis threshold, `float _hystfactor`. -/
  _hystfactor : ℚ
deriving DecidableEq

/-- The constructor `HystRound::HystRound(int16_t value, float hystfactor)`. -/
def HystRound.new (value : Int) (hystfactor : ℚ) : HystRound :=
  { _value := value, _hystfactor := hystfactor }

/-- The test of `hystRound`, `abs((float)_value - newvalue) > _hystfactor`:
the difference is computed in binary32. -/
def HystRound.exceeds (self : HystRound) (newvalue : ℚ) : Prop :=
  abs (fl32 ((self._value : ℚ) - newvalue)) > self._hystfactor

instance (self : HystRound) (newvalue : ℚ) : Decidable (self.exceeds newvalue) :=
  inferInstanceAs (Decidable (abs (fl32 ((self._value : ℚ) - newvalue)) > self._hystfactor))

/-- The method `int16_t HystRound::hystRound(float newvalue)`: the returned
value paired with the state after the call. -/
def HystRound.hystRound (self : HystRound) (newvalue : ℚ) : Int × HystRound :=
  if self.exceeds newvalue then
    (toInt16 (round newvalue), { self with _value := toInt16 (round newvalue) })
  else
    (self._value, self)

/-- A control loop feeding the samples to `hystRound` in order: the list of
returned values and the final state. -/
def HystRound.hystRoundSeq : HystRound → List ℚ → List Int × HystRound
  | self, [] => ([], self)
  | self, s :: ss =>
    ((self.hystRound s).1 :: ((self.hystRound s).2.hystRoundSeq ss).1,
      ((self.hystRound s).2.hystRoundSeq ss).2)

/-- The state in which the control loop leaves the filter after the samples. -/
def HystRound.stateAfter (self : HystRound) (ss : List ℚ) : HystRound :=
  (self.hystRoundSeq ss).2

/-- Whether step `k` of the control loop (counted from `0`) exceeded the
threshold: the test of `hystRound` on the state left by the first `k` samples
and the sample number `k`. -/
def HystRound.triggeredAt (self : HystRound) (ss : List ℚ) (k : Nat) : Bool :=
  decide ((self.stateAfter (ss.take k)).exceeds (ss.getD k 0))

/-! ## The binary32 rounding -/

/-- An integer is its own rounding to the nearest integer. -/
theorem roundEven_intCast (n : Int) : roundEven (n : ℚ) = n := by
  unfold roundEven
  simp

/-- The rounding to the nearest integer is not below the floor. -/
theorem floor_le_roundEven (q : ℚ) : ⌊q⌋ ≤ roundEven q := by
  unfold roundEven
  split_ifs <;> omega

/-- The rounding to the nearest integer is at most one above the floor. -/
theorem roundEven_le_floor_add_one (q : ℚ) : roundEven q ≤ ⌊q⌋ + 1 := by
  unfold roundEven
  split_ifs <;> omega

/-- The rounding to the nearest integer is monotone. -/
theorem roundEven_mono (p q : ℚ) (h : p ≤ q) : roundEven p ≤ roundEven q := by
  have hf : ⌊p⌋ ≤ ⌊q⌋ := Int.floor_mono h
  rcases lt_or_eq_of_le hf with hlt | heq
  · exact le_trans (roundEven_le_floor_add_one p) (le_trans hlt (floor_le_roundEven q))
  · unfold roundEven
    rw [heq]
    have hq : (⌊q⌋ : ℚ) = ⌊p⌋ := by rw [heq]
    split_ifs <;> first | omega | (exfalso; linarith)

/-- The rounding of a number whose fractional part is below one half. -/
theorem roundEven_of_lt (q : ℚ) (n : Int) (h1 : (n : ℚ) ≤ q) (h2 : q - n < 1 / 2) :
    roundEven q = n := by
  have hf : ⌊q⌋ = n := by
    rw [Int.floor_eq_iff]
    constructor <;> linarith
  unfold roundEven
  rw [hf, if_pos h2]

/-- The rounding of a number less than one half below an integer. -/
theorem roundEven_of_gt (q : ℚ) (n : Int) (h1 : q < (n : ℚ)) (h2 : (n : ℚ) - q < 1 / 2) :
    roundEven q = n := by
  have hf : ⌊q⌋ = n - 1 := by
    rw [Int.floor_eq_iff]
    push_cast
    constructor <;> linarith
  unfold roundEven
  rw [hf]
  push_cast
  rw [if_neg (by linarith), if_pos (by linarith)]
  ring

/-- The rounding of a number halfway above an even integer. -/
theorem roundEven_tie_even (q : ℚ) (n : Int) (h : q = n + 1 / 2) (he : n % 2 = 0) :
    roundEven q = n := by
  have hf : ⌊q⌋ = n := by
    rw [Int.floor_eq_iff]
    constructor <;> linarith
  unfold roundEven
  rw [hf, if_neg (by linarith), if_neg (by linarith), if_pos he]

/-- Powers of two are positive. -/
theorem two_zpow_pos (k : Int) : (0 : ℚ) < 2 ^ k := zpow_pos (by norm_num) k

/-- The unit in the last place grows with the number. -/
theorem ulpExp_mono (x y : ℚ) (hx : 0 < x) (h : x ≤ y) : ulpExp x ≤ ulpExp y := by
  unfold ulpExp
  have := Int.log_mono_right (b := 2) hx h
  omega

/-- Zero rounds to zero. -/
theorem roundMag_zero : roundMag 0 = 0 := by
  unfold roundMag
  simp [roundEven]

/-- The rounding of a non-negative number is non-negative. -/
theorem roundMag_nonneg (x : ℚ) (hx : 0 ≤ x) : 0 ≤ roundMag x := by
  unfold roundMag
  have h1 : (0 : ℚ) ≤ x / 2 ^ ulpExp x := div_nonneg hx (two_zpow_pos _).le
  have h2 : (0 : Int) ≤ roundEven (x / 2 ^ ulpExp x) :=
    le_trans (Int.floor_nonneg.mpr h1) (floor_le_roundEven _)
  exact mul_nonneg (by exact_mod_cast h2) (two_zpow_pos _).le

/-- A power of two splits into a natural power and the unit below it. -/
theorem zpow_split (e u : Int) (n : Nat) (hn : e - u = n) :
    (2 : ℚ) ^ e = 2 ^ n * 2 ^ u := by
  rw [← zpow_natCast, ← zpow_add₀ (by norm_num : (2 : ℚ) ≠ 0), ← hn]
  congr 1
  omega

/-- A number at most a power of two rounds to at most that power. -/
theorem roundMag_le_zpow (x : ℚ) (e : Int) (he : ulpExp x ≤ e)
    (h : x ≤ 2 ^ e) : roundMag x ≤ 2 ^ e := by
  unfold roundMag
  obtain ⟨n, hn⟩ : ∃ n : Nat, e - ulpExp x = n := ⟨(e - ulpExp x).toNat, by omega⟩
  have hsplit := zpow_split e (ulpExp x) n hn
  have hq : x / 2 ^ ulpExp x ≤ (((2 ^ n : Nat) : Int) : ℚ) := by
    rw [div_le_iff₀ (two_zpow_pos _)]
    push_cast
    rw [← hsplit]
    exact h
  have hr := roundEven_mono _ _ hq
  rw [roundEven_intCast] at hr
  rw [hsplit]
  apply mul_le_mul_of_nonneg_right _ (two_zpow_pos _).le
  have : ((roundEven (x / 2 ^ ulpExp x) : Int) : ℚ) ≤ (((2 ^ n : Nat) : Int) : ℚ) := by
    exact_mod_cast hr
  simpa using this

/-- A number at least a power of two, which is a multiple of its unit, rounds
to at least that power. -/
theorem zpow_le_roundMag (x : ℚ) (e : Int) (he : ulpExp x ≤ e)
    (h : 2 ^ e ≤ x) : 2 ^ e ≤ roundMag x := by
  unfold roundMag
  obtain ⟨n, hn⟩ : ∃ n : Nat, e - ulpExp x = n := ⟨(e - ulpExp x).toNat, by omega⟩
  have hsplit := zpow_split e (ulpExp x) n hn
  have hq : (((2 ^ n : Nat) : Int) : ℚ) ≤ x / 2 ^ ulpExp x := by
    rw [le_div_iff₀ (two_zpow_pos _)]
    push_cast
    rw [← hsplit]
    exact h
  have hr := roundEven_mono _ _ hq
  rw [roundEven_intCast] at hr
  rw [hsplit]
  apply mul_le_mul_of_nonneg_right _ (two_zpow_pos _).le
  have : (((2 ^ n : Nat) : Int) : ℚ) ≤ ((roundEven (x / 2 ^ ulpExp x) : Int) : ℚ) := by
    exact_mod_cast hr
  simpa using this

/-- The rounding of positive numbers is monotone. -/
theorem roundMag_mono (x y : ℚ) (hx : 0 < x) (h : x ≤ y) : roundMag x ≤ roundMag y := by
  have hk := ulpExp_mono x y hx h
  have hy : 0 < y := lt_of_lt_of_le hx h
  rcases lt_or_eq_of_le hk with hlt | heq
  · -- different units: a power of two lies between the two numbers
    have hky : ulpExp y = Int.log 2 y - 23 := by
      unfold ulpExp at hlt ⊢
      omega
    have hkx : Int.log 2 x - 23 ≤ ulpExp x := by
      unfold ulpExp
      omega
    have h1 : x ≤ 2 ^ (ulpExp y + 23) := by
      have := Int.lt_zpow_succ_log_self (b := 2) (by norm_num) x
      have hle : (2 : ℚ) ^ (Int.log 2 x + 1) ≤ 2 ^ (ulpExp y + 23) :=
        zpow_le_zpow_right₀ (by norm_num) (by omega)
      push_cast at this
      linarith
    have h2 : (2 : ℚ) ^ (ulpExp y + 23) ≤ y := by
      have := Int.zpow_log_le_self (b := 2) (by norm_num) hy
      rw [hky]
      push_cast at this
      simpa using this
    exact le_trans (roundMag_le_zpow x _ (by omega) h1)
      (zpow_le_roundMag y _ (by omega) h2)
  · unfold roundMag
    rw [heq]
    apply mul_le_mul_of_nonneg_right _ (two_zpow_pos _).le
    have := roundEven_mono (x / 2 ^ ulpExp y) (y / 2 ^ ulpExp y)
      (div_le_div_of_nonneg_right h (two_zpow_pos _).le)
    exact_mod_cast this

/-- Zero is a binary32 value. -/
theorem fl32_zero : fl32 0 = 0 := by
  unfold fl32
  simp [roundMag_zero]

/-- The binary32 rounding is symmetric about zero. -/
theorem fl32_neg (x : ℚ) : fl32 (-x) = -fl32 x := by
  unfold fl32
  rcases lt_trichotomy x 0 with h | h | h
  · have h1 : (0 : ℚ) ≤ -x := by linarith
    have h2 : ¬ (0 : ℚ) ≤ x := not_le.mpr h
    rw [if_pos h1, if_neg h2, neg_neg]
  · subst h
    simp [roundMag_zero]
  · have h1 : ¬ (0 : ℚ) ≤ -x := by linarith
    have h2 : (0 : ℚ) ≤ x := h.le
    rw [if_neg h1, if_pos h2, neg_neg]

/-- The binary32 rounding is monotone. -/
theorem fl32_mono (x y : ℚ) (h : x ≤ y) : fl32 x ≤ fl32 y := by
  unfold fl32
  by_cases hx : 0 ≤ x
  · have hy : 0 ≤ y := le_trans hx h
    rw [if_pos hx, if_pos hy]
    rcases eq_or_lt_of_le hx with h0 | h0
    · rw [← h0, roundMag_zero]
      exact roundMag_nonneg y hy
    · exact roundMag_mono x y h0 h
  · rw [if_neg hx]
    by_cases hy : 0 ≤ y
    · rw [if_pos hy]
      have := roundMag_nonneg (-x) (by linarith)
      have := roundMag_nonneg y hy
      linarith
    · rw [if_neg hy]
      have := roundMag_mono (-y) (-x) (by linarith) (by linarith)
      linarith

/-- The binary exponent of a number between two consecutive powers of two. -/
theorem log_eq_of_bounds (x : ℚ) (e : Int) (hlo : 2 ^ e ≤ x) (hhi : x < 2 ^ (e + 1)) :
    Int.log 2 x = e := by
  have hx : 0 < x := lt_of_lt_of_le (two_zpow_pos e) hlo
  have h1 : e ≤ Int.log 2 x :=
    (Int.zpow_le_iff_le_log (b := 2) (by norm_num) hx).mp (by push_cast; exact hlo)
  have h2 : Int.log 2 x < e + 1 :=
    (Int.lt_zpow_iff_log_lt (b := 2) (by norm_num) hx).mp (by push_cast; exact hhi)
  omega

/-- The rounding of a positive number in the binade whose unit is `2^k`. -/
theorem roundMag_eq (x : ℚ) (k n : Int) (hk : -149 ≤ k) (hlo : 2 ^ (k + 23) ≤ x)
    (hhi : x < 2 ^ (k + 24)) (hn : roundEven (x / 2 ^ k) = n) :
    roundMag x = (n : ℚ) * 2 ^ k := by
  have hlog := log_eq_of_bounds x (k + 23) hlo
    (by rw [show k + 23 + 1 = k + 24 by ring]; exact hhi)
  have hu : ulpExp x = k := by
    unfold ulpExp
    omega
  unfold roundMag
  rw [hu, hn]

/-- A positive integer below `2^24` times a power of two not below `2^-149` is
its own rounding. -/
theorem roundMag_int_mul_zpow (m k : Int) (hm0 : 0 < m) (hm : m < 2 ^ 24) (hk : -149 ≤ k) :
    roundMag ((m : ℚ) * 2 ^ k) = (m : ℚ) * 2 ^ k := by
  have hx : (0 : ℚ) < (m : ℚ) * 2 ^ k := mul_pos (by exact_mod_cast hm0) (two_zpow_pos k)
  have hlt : (m : ℚ) * 2 ^ k < 2 ^ (24 + k) := by
    rw [zpow_add₀ (by norm_num : (2 : ℚ) ≠ 0)]
    apply mul_lt_mul_of_pos_right _ (two_zpow_pos k)
    have : ((m : Int) : ℚ) < ((2 ^ 24 : Int) : ℚ) := by exact_mod_cast hm
    push_cast at this
    norm_num at this ⊢
    exact this
  have hlog : Int.log 2 ((m : ℚ) * 2 ^ k) < 24 + k :=
    (Int.lt_zpow_iff_log_lt (b := 2) (by norm_num) hx).mp (by push_cast; exact hlt)
  have hu : ulpExp ((m : ℚ) * 2 ^ k) ≤ k := by
    unfold ulpExp
    omega
  unfold roundMag
  obtain ⟨n, hn⟩ : ∃ n : Nat, k - ulpExp ((m : ℚ) * 2 ^ k) = n :=
    ⟨(k - ulpExp ((m : ℚ) * 2 ^ k)).toNat, by omega⟩
  have hsplit := zpow_split k (ulpExp ((m : ℚ) * 2 ^ k)) n hn
  have hq : (m : ℚ) * 2 ^ k / 2 ^ ulpExp ((m : ℚ) * 2 ^ k) = ((m * 2 ^ n : Int) : ℚ) := by
    rw [div_eq_iff (two_zpow_pos _).ne']
    push_cast
    rw [mul_assoc, ← hsplit]
  rw [hq, roundEven_intCast]
  push_cast
  rw [mul_assoc, ← hsplit]

/-- An integer of magnitude below `2^24` times a power of two not below
`2^-149` is its own rounding to binary32. -/
theorem fl32_int_mul_zpow (m k : Int) (hm : |m| < 2 ^ 24) (hk : -149 ≤ k) :
    fl32 ((m : ℚ) * 2 ^ k) = (m : ℚ) * 2 ^ k := by
  rw [abs_lt] at hm
  rcases lt_trichotomy m 0 with h | h | h
  · have hpos := roundMag_int_mul_zpow (-m) k (by omega) (by omega) hk
    have hneg : ¬ (0 : ℚ) ≤ (m : ℚ) * 2 ^ k := by
      rw [not_le]
      exact mul_neg_of_neg_of_pos (by exact_mod_cast h) (two_zpow_pos k)
    unfold fl32
    rw [if_neg hneg]
    push_cast at hpos
    rw [show -((m : ℚ) * 2 ^ k) = -(m : ℚ) * 2 ^ k by ring, hpos]
    ring
  · subst h
    simp [fl32_zero]
  · unfold fl32
    rw [if_pos (mul_nonneg (by exact_mod_cast h.le) (two_zpow_pos k).le)]
    exact roundMag_int_mul_zpow m k h hm.2 hk

/-- An integer of magnitude below `2^24` times a power of two from `2^-149` to
`2^104` is a finite binary32 value. -/
theorem isFloat_int_mul_zpow (m k : Int) (hm : |m| < 2 ^ 24) (hk : -149 ≤ k)
    (hk2 : k ≤ 104) : isFloat ((m : ℚ) * 2 ^ k) := by
  refine ⟨fl32_int_mul_zpow m k hm hk, ?_⟩
  unfold FLT_MAX
  rw [abs_mul, abs_of_pos (two_zpow_pos k)]
  have h1 : |(m : ℚ)| ≤ 16777215 := by
    have : |m| ≤ 16777215 := by
      have h24 : (2 : Int) ^ 24 = 16777216 := by norm_num
      omega
    exact_mod_cast this
  have h2 : (2 : ℚ) ^ k ≤ 2 ^ (104 : Int) := zpow_le_zpow_right₀ (by norm_num) hk2
  have h3 : (2 : ℚ) ^ (104 : Int) = 2 ^ (104 : Nat) := by norm_cast
  rw [h3] at h2
  exact mul_le_mul h1 h2 (two_zpow_pos k).le (by norm_num)

/-- A difference within a binary32 bound stays within it when rounded. -/
theorem abs_fl32_le (b d : ℚ) (hb : isFloat b) (h : |d| ≤ b) : |fl32 d| ≤ b := by
  rw [abs_le] at h ⊢
  have h1 := fl32_mono _ _ h.1
  have h2 := fl32_mono _ _ h.2
  rw [fl32_neg] at h1
  rw [hb.1] at h1 h2
  exact ⟨h1, h2⟩

/-- A difference that reaches a binary32 bound still reaches it when rounded. -/
theorem le_abs_fl32 (b d : ℚ) (hb : isFloat b) (h : b ≤ |d|) : b ≤ |fl32 d| := by
  rcases le_abs.mp h with h1 | h1
  · have := fl32_mono _ _ h1
    rw [hb.1] at this
    exact le_trans this (le_abs_self _)
  · have := fl32_mono d (-b) (by linarith)
    rw [fl32_neg, hb.1] at this
    have h3 := neg_le_abs (fl32 d)
    linarith

/-- A rounded difference beyond a binary32 bound comes from an exact one
beyond it. -/
theorem lt_abs_of_lt_abs_fl32 (b d : ℚ) (hb : isFloat b) (h : b < |fl32 d|) : b < |d| := by
  by_contra hcon
  exact absurd (abs_fl32_le b d hb (not_lt.mp hcon)) (not_le.mpr h)

/-- A rounded difference within a binary32 bound, strictly, comes from an exact
one strictly within it. -/
theorem abs_lt_of_abs_fl32_lt (b d : ℚ) (hb : isFloat b) (h : |fl32 d| < b) : |d| < b := by
  by_contra hcon
  exact absurd (le_abs_fl32 b d hb (not_lt.mp hcon)) (not_le.mpr h)

/-- One half is a binary32 value. -/
theorem isFloat_one_half : isFloat (1 / 2) := by
  have := isFloat_int_mul_zpow 1 (-1) (by norm_num) (by norm_num) (by norm_num)
  norm_num at this
  exact this

/-- Three quarters is a binary32 value. -/
theorem isFloat_three_quarters : isFloat (3 / 4) := by
  have := isFloat_int_mul_zpow 3 (-2) (by norm_num) (by norm_num) (by norm_num)
  norm_num at this
  exact this

/-- One is a binary32 value. -/
theorem isFloat_one : isFloat 1 := by
  have := isFloat_int_mul_zpow 1 0 (by norm_num) (by norm_num) (by norm_num)
  norm_num at this
  exact this

/-- The binary32 value nearest to `0.8` is a binary32 value. -/
theorem isFloat_08f : isFloat (13421773 / 16777216) := by
  have := isFloat_int_mul_zpow 13421773 (-24) (by norm_num) (by norm_num) (by norm_num)
  norm_num at this
  exact this

/-- The constant `HYST_FACTOR` converted to `float`, as the constructor
receives it. -/
theorem fl32_HYST_FACTOR : fl32 HYST_FACTOR = 13421773 / 16777216 := by
  unfold fl32 HYST_FACTOR
  rw [if_pos (by norm_num)]
  rw [roundMag_eq _ (-24) 13421773 (by norm_num) (by norm_num) (by norm_num)
    (roundEven_of_gt _ _ (by norm_num) (by norm_num))]
  norm_num

/-! ## Basic facts about the embedding -/

/-- The macro `abs` computes the absolute value. -/
theorem abs_eq (x : ℚ) : abs x = |x| := by
  unfold abs
  split_ifs with h
  · exact (abs_of_pos h).symm
  · exact (abs_of_nonpos (not_lt.mp h)).symm

/-- The test of `hystRound` in terms of the absolute value. -/
theorem exceeds_iff (self : HystRound) (s : ℚ) :
    self.exceeds s ↔ self._hystfactor < |fl32 ((self._value : ℚ) - s)| := by
  unfold HystRound.exceeds
  rw [abs_eq]

/-- The macro `round` yields the value rounded half away from zero. -/
theorem round_eq (x : ℚ) : round x = specRound x := by
  unfold round specRound castLong
  by_cases hx : 0 ≤ x
  · have h1 : x + 1 / 2 ≥ 0 := by linarith
    simp only [ge_iff_le, hx, h1, if_true] at *
  · have h1 : ¬ (x - 1 / 2 ≥ 0) := by
      intro h; apply hx; linarith
    simp only [ge_iff_le, hx, h1, if_false] at *

/-- Narrowing does not change a value that already is an `int16_t`. -/
theorem toInt16_of_isInt16 (z : Int) (h : isInt16 z) : toInt16 z = z := by
  unfold isInt16 at h
  unfold toInt16
  omega

/-- Narrowing always yields an `int16_t`. -/
theorem isInt16_toInt16 (z : Int) : isInt16 (toInt16 z) := by
  unfold isInt16 toInt16
  omega

/-- The narrowed value differs from the value by a multiple of `2^16`. -/
theorem toInt16_congr (z : Int) : (z - toInt16 z) % 65536 = 0 := by
  unfold toInt16
  omega

/-- Narrowing leaves exactly the `int16_t` values unchanged. -/
theorem toInt16_eq_iff (z : Int) : toInt16 z = z ↔ isInt16 z := by
  constructor
  · intro h
    rw [← h]
    exact isInt16_toInt16 z
  · exact toInt16_of_isInt16 z

/-- The step when the test fails: nothing changes. -/
theorem hystRound_of_not_exceeds (self : HystRound) (s : ℚ) (h : ¬ self.exceeds s) :
    self.hystRound s = (self._value, self) := by
  unfold HystRound.hystRound
  rw [if_neg h]

/-- The step when the test succeeds: the narrowed rounded sample is stored and
returned. -/
theorem hystRound_of_exceeds (self : HystRound) (s : ℚ) (h : self.exceeds s) :
    self.hystRound s = (toInt16 (specRound s),
      { _value := toInt16 (specRound s), _hystfactor := self._hystfactor }) := by
  unfold HystRound.hystRound
  rw [if_pos h, round_eq]

/-- The step when the test succeeds and the rounded sample is an `int16_t`. -/
theorem hystRound_of_exceeds_int16 (self : HystRound) (s : ℚ) (h : self.exceeds s)
    (hr : isInt16 (specRound s)) :
    self.hystRound s = (specRound s,
      { _value := specRound s, _hystfactor := self._hystfactor }) := by
  rw [hystRound_of_exceeds self s h, toInt16_of_isInt16 _ hr]

/-- The rounded value is within one half of the sample. -/
theorem abs_specRound_sub_le (x : ℚ) : |((specRound x : Int) : ℚ) - x| ≤ 1 / 2 := by
  unfold specRound
  rw [abs_le]
  split_ifs with h
  · have h1 := Int.floor_le (x + 1 / 2)
    have h2 := Int.lt_floor_add_one (x + 1 / 2)
    constructor <;> linarith
  · have h1 := Int.le_ceil (x - 1 / 2)
    have h2 := Int.ceil_lt_add_one (x - 1 / 2)
    constructor <;> linarith

/-- An integer strictly within one half of the sample is its rounded value. -/
theorem specRound_eq_of_abs_lt (v : Int) (x : ℚ) (h : |(v : ℚ) - x| < 1 / 2) :
    specRound x = v := by
  rw [abs_lt] at h
  unfold specRound
  split_ifs with hx
  · rw [Int.floor_eq_iff]
    constructor <;> linarith [h.1, h.2]
  · rw [Int.ceil_eq_iff]
    constructor <;> linarith [h.1, h.2]

/-- The rounding half away from zero is monotone. -/
theorem specRound_mono (x y : ℚ) (h : x ≤ y) : specRound x ≤ specRound y := by
  unfold specRound
  split_ifs with hx hy hy
  · exact Int.floor_mono (by linarith)
  · exact absurd (le_trans hx h) hy
  · have h1 : ⌈x - 1 / 2⌉ ≤ 0 := Int.ceil_le.mpr (by push_cast; linarith [not_le.mp hx])
    have h2 : (0 : Int) ≤ ⌊y + 1 / 2⌋ := Int.le_floor.mpr (by push_cast; linarith)
    exact le_trans h1 h2
  · exact Int.ceil_mono (by linarith)

/-- An integer is its own rounded value. -/
theorem specRound_intCast (v : Int) : specRound (v : ℚ) = v :=
  specRound_eq_of_abs_lt v (v : ℚ) (by simp)

/-- The test fails when a binary32 value not above the threshold bounds the
exact difference. -/
theorem not_exceeds_of_abs_le (self : HystRound) (s b : ℚ) (hb : isFloat b)
    (h : |(self._value : ℚ) - s| ≤ b) (hbt : b ≤ self._hystfactor) : ¬ self.exceeds s := by
  rw [exceeds_iff, not_lt]
  exact le_trans (abs_fl32_le b _ hb h) hbt

/-- The test succeeds when the exact difference reaches a binary32 value above
the threshold. -/
theorem exceeds_of_le_abs (self : HystRound) (s b : ℚ) (hb : isFloat b)
    (h : b ≤ |(self._value : ℚ) - s|) (hbt : self._hystfactor < b) : self.exceeds s := by
  rw [exceeds_iff]
  exact lt_of_lt_of_le hbt (le_abs_fl32 b _ hb h)

/-- The step from a freshly built state when a binary32 value not above the
threshold bounds the exact difference. -/
theorem step_keep_of_bound (v : Int) (t s b : ℚ) (hb : isFloat b)
    (h : |(v : ℚ) - s| ≤ b) (hbt : b ≤ t) :
    (HystRound.new v t).hystRound s = (v, HystRound.new v t) :=
  hystRound_of_not_exceeds _ s (not_exceeds_of_abs_le (HystRound.new v t) s b hb h hbt)

/-- The step from a freshly built state with a binary32 threshold when the
sample is within the threshold. -/
theorem step_keep (v : Int) (t s : ℚ) (ht : isFloat t) (h : |(v : ℚ) - s| ≤ t) :
    (HystRound.new v t).hystRound s = (v, HystRound.new v t) :=
  step_keep_of_bound v t s t ht h le_rfl

/-- The step from a freshly built state when the test fails. -/
theorem step_keep_of_test (v : Int) (t s : ℚ) (h : |fl32 ((v : ℚ) - s)| ≤ t) :
    (HystRound.new v t).hystRound s = (v, HystRound.new v t) := by
  apply hystRound_of_not_exceeds
  rw [exceeds_iff]
  exact not_lt.mpr h

/-- The step from a freshly built state when the test succeeds and the rounded
sample is an `int16_t`. -/
theorem step_round (v : Int) (t s : ℚ) (h : t < |fl32 ((v : ℚ) - s)|)
    (hr : isInt16 (specRound s)) :
    (HystRound.new v t).hystRound s = (specRound s, HystRound.new (specRound s) t) := by
  apply hystRound_of_exceeds_int16 _ _ _ hr
  rw [exceeds_iff]
  exact h

/-- The step from a freshly built state when the exact difference reaches a
binary32 value above the threshold. -/
theorem step_round_of_bound (v : Int) (t s b : ℚ) (hb : isFloat b)
    (h : b ≤ |(v : ℚ) - s|) (hbt : t < b) (hr : isInt16 (specRound s)) :
    (HystRound.new v t).hystRound s = (specRound s, HystRound.new (specRound s) t) :=
  step_round v t s (lt_of_lt_of_le hbt (le_abs_fl32 b _ hb h)) hr

/-- Once the stored value is the rounded sample, the step on that sample is a
fixed point, whether or not the test succeeds. -/
theorem step_fixed (t s : ℚ) (hr : isInt16 (specRound s)) :
    (HystRound.new (specRound s) t).hystRound s
      = (specRound s, HystRound.new (specRound s) t) := by
  by_cases h : t < |fl32 (((specRound s : Int) : ℚ) - s)|
  · exact step_round _ t s h hr
  · exact step_keep_of_test _ t s (not_lt.mp h)

/-- Feeding a sample repeatedly to a state that the step on this sample leaves
unchanged returns the same value every time. -/
theorem seq_replicate_fixed (st : HystRound) (s : ℚ) (r : Int)
    (h : st.hystRound s = (r, st)) (n : Nat) :
    st.hystRoundSeq (List.replicate n s) = (List.replicate n r, st) := by
  induction n with
  | zero => rfl
  | succ n ih => simp only [List.replicate_succ, HystRound.hystRoundSeq, h, ih]

/-- A run on a first sample and the rest. -/
theorem hystRoundSeq_cons (self st : HystRound) (s : ℚ) (ss : List ℚ) (r : Int)
    (h : self.hystRound s = (r, st)) :
    self.hystRoundSeq (s :: ss) = (r :: (st.hystRoundSeq ss).1, (st.hystRoundSeq ss).2) := by
  simp only [HystRound.hystRoundSeq, h]

/-- The state before step `k + 1` of a run is the state before step `k` of the
run that starts after the first step. -/
theorem stateAfter_take_succ (self st : HystRound) (s : ℚ) (ss : List ℚ) (r : Int) (k : Nat)
    (h : self.hystRound s = (r, st)) :
    self.stateAfter ((s :: ss).take (k + 1)) = st.stateAfter (ss.take k) := by
  unfold HystRound.stateAfter
  rw [List.take_succ_cons, hystRoundSeq_cons self st s _ r h]

/-- Step `k + 1` of a run is step `k` of the run that starts after the first
step. -/
theorem triggeredAt_succ (self st : HystRound) (s : ℚ) (ss : List ℚ) (r : Int) (k : Nat)
    (h : self.hystRound s = (r, st)) :
    self.triggeredAt (s :: ss) (k + 1) = st.triggeredAt ss k := by
  unfold HystRound.triggeredAt
  rw [stateAfter_take_succ self st s ss r k h]
  rfl

/-- Step `0` of a run is the test on the initial state and the first sample. -/
theorem triggeredAt_zero (self : HystRound) (s : ℚ) (ss : List ℚ) :
    self.triggeredAt (s :: ss) 0 = decide (self.exceeds s) := by
  rfl

/-- The stored value after a run whose samples all round to an `int16_t`: the
rounded sample of the last step whose test succeeded, and the initial value
when no test did. -/
theorem provenance_aux (ss : List ℚ) (hr : ∀ s ∈ ss, isInt16 (specRound s)) :
    ∀ self : HystRound,
      ((∃ k, k < ss.length ∧ self.triggeredAt ss k = true ∧
          (∀ j, k < j → j < ss.length → self.triggeredAt ss j = false) ∧
          (self.hystRoundSeq ss).2._value = specRound (ss.getD k 0)) ∨
        ((∀ j, j < ss.length → self.triggeredAt ss j = false) ∧
          (self.hystRoundSeq ss).2._value = self._value)) := by
  induction ss with
  | nil =>
    intro self
    exact Or.inr ⟨fun j hj => absurd hj (Nat.not_lt_zero j), rfl⟩
  | cons s ss ih =>
    intro self
    have hrs : isInt16 (specRound s) := hr s (List.mem_cons_self s ss)
    have hrss : ∀ x ∈ ss, isInt16 (specRound x) := fun x hx => hr x (List.mem_cons_of_mem s hx)
    obtain ⟨r, st, hstep, hst⟩ : ∃ r st, self.hystRound s = (r, st) ∧
        ((self.exceeds s ∧ st._value = specRound s) ∨ (¬ self.exceeds s ∧ st = self)) := by
      by_cases hex : self.exceeds s
      · exact ⟨_, _, hystRound_of_exceeds_int16 self s hex hrs, Or.inl ⟨hex, rfl⟩⟩
      · exact ⟨_, _, hystRound_of_not_exceeds self s hex, Or.inr ⟨hex, rfl⟩⟩
    have hcase := ih hrss st
    rw [hystRoundSeq_cons self st s ss r hstep]
    have hlater : ∀ k : Nat, (∀ j, k < j → j < ss.length → st.triggeredAt ss j = false) →
        ∀ j, k + 1 < j → j < (s :: ss).length → self.triggeredAt (s :: ss) j = false := by
      intro k hk j hkj hj
      obtain ⟨i, rfl⟩ : ∃ i, j = i + 1 := ⟨j - 1, by omega⟩
      rw [triggeredAt_succ self st s ss r i hstep]
      exact hk i (by omega) (by simpa using hj)
    rcases hcase with ⟨k, hk, htrig, hafter, hval⟩ | ⟨hnone, hval⟩
    · -- a later step is the last one whose test succeeded
      refine Or.inl ⟨k + 1, by simpa using hk, ?_, hlater k hafter, ?_⟩
      · rw [triggeredAt_succ self st s ss r k hstep]
        exact htrig
      · simpa using hval
    · rcases hst with ⟨hex, hsv⟩ | ⟨hex, hsame⟩
      · -- only the test of the first step succeeded
        refine Or.inl ⟨0, by simp, ?_, ?_, ?_⟩
        · rw [triggeredAt_zero]
          exact decide_eq_true hex
        · intro j hj0 hj
          obtain ⟨i, rfl⟩ : ∃ i, j = i + 1 := ⟨j - 1, by omega⟩
          rw [triggeredAt_succ self st s ss r i hstep]
          exact hnone i (by simpa using hj)
        · show (st.hystRoundSeq ss).2._value = specRound ((s :: ss).getD 0 0)
          rw [hval, hsv]
          rfl
      · -- no test succeeded
        refine Or.inr ⟨?_, ?_⟩
        · intro j hj
          cases j with
          | zero =>
            rw [triggeredAt_zero]
            exact decide_eq_false hex
          | succ i =>
            rw [triggeredAt_succ self st s ss r i hstep]
            exact hnone i (by simpa using hj)
        · show (st.hystRoundSeq ss).2._value = self._value
          rw [hval, hsame]

/-- The step keeps the threshold, and the state after it differs from the
state before it in the stored value only, which is the returned value. -/
theorem hystRound_frame (self st : HystRound) (s : ℚ) (r : Int)
    (h : self.hystRound s = (r, st)) :
    st = { self with _value := r } := by
  unfold HystRound.hystRound at h
  split_ifs at h with hex
  · simp only [Prod.mk.injEq] at h
    obtain ⟨h1, h2⟩ := h
    rw [← h2, ← h1]
  · simp only [Prod.mk.injEq] at h
    obtain ⟨h1, h2⟩ := h
    rw [← h2, ← h1]

/-- The control loop keeps the threshold. -/
theorem hystRoundSeq_hystfactor (ss : List ℚ) :
    ∀ self : HystRound, (self.hystRoundSeq ss).2._hystfactor = self._hystfactor := by
  induction ss with
  | nil =>
    intro self
    rfl
  | cons s ss ih =>
    intro self
    rw [hystRoundSeq_cons self (self.hystRound s).2 s ss (self.hystRound s).1 rfl]
    show ((self.hystRound s).2.hystRoundSeq ss).2._hystfactor = self._hystfactor
    rw [ih, hystRound_frame self (self.hystRound s).2 s (self.hystRound s).1 rfl]

/-- While every sample is within the binary32 threshold of the stored value,
every step returns the stored value and the state never changes. -/
theorem seq_all_keep (v : Int) (t : ℚ) (ss : List ℚ) (ht : isFloat t)
    (h : ∀ b ∈ ss, |(v : ℚ) - b| ≤ t) :
    (HystRound.new v t).hystRoundSeq ss
      = (List.replicate ss.length v, HystRound.new v t) := by
  induction ss with
  | nil => rfl
  | cons s ss ih =>
    have h1 := step_keep v t s ht (h s (List.mem_cons_self s ss))
    have h2 := ih (fun b hb => h b (List.mem_cons_of_mem s hb))
    rw [hystRoundSeq_cons _ _ s ss v h1, h2]
    rfl

/-- The step on a state that an update on the same sample has just stored:
the same result again, whether or not the test succeeds. -/
theorem hystRound_after_update (t s : ℚ) :
    (HystRound.new (toInt16 (specRound s)) t).hystRound s
      = (toInt16 (specRound s), HystRound.new (toInt16 (specRound s)) t) := by
  by_cases hex : (HystRound.new (toInt16 (specRound s)) t).exceeds s
  · exact hystRound_of_exceeds _ s hex
  · exact hystRound_of_not_exceeds _ s hex

/-- A second call with the same sample repeats the result of the first. -/
theorem hystRound_twice (self st : HystRound) (s : ℚ) (r : Int)
    (h : self.hystRound s = (r, st)) : st.hystRound s = (r, st) := by
  by_cases hex : self.exceeds s
  · rw [hystRound_of_exceeds self s hex] at h
    simp only [Prod.mk.injEq] at h
    obtain ⟨h1, h2⟩ := h
    rw [← h2, ← h1]
    exact hystRound_after_update self._hystfactor s
  · rw [hystRound_of_not_exceeds self s hex] at h
    simp only [Prod.mk.injEq] at h
    obtain ⟨h1, h2⟩ := h
    rw [← h2, ← h1]
    exact hystRound_of_not_exceeds self s hex

/-! ## Concrete evaluations shared by the claims -/

/-- The mathematical rounding of `40000`. -/
theorem specRound_40000 : specRound 40000 = 40000 := by
  simp [specRound]
  norm_num [Int.floor_eq_iff]

/-- Evaluation of the step on a sample whose rounded value is not an
`int16_t`: from the state `(0, 0.8)` the sample `40000` is stored as `-25536`. -/
theorem hystRound_40000 :
    (HystRound.new 0 (8 / 10)).hystRound 40000
      = (-25536, HystRound.new (-25536) (8 / 10)) := by
  rw [hystRound_of_exceeds _ _ (exceeds_of_le_abs _ _ 1 isFloat_one
    (by norm_num [HystRound.new, le_abs]) (by norm_num [HystRound.new])), specRound_40000]
  rfl

/-- The mathematical rounding of `1.5` and of `-1.5`. -/
theorem specRound_three_halves : specRound (3 / 2) = 2 ∧ specRound (-3 / 2) = -2 := by
  constructor
  · simp [specRound]
    norm_num [Int.floor_eq_iff]
  · simp [specRound]
    norm_num [Int.ceil_eq_iff]

/-- The mathematical rounding of `0.9`. -/
theorem specRound_nine_tenths : specRound (9 / 10) = 1 := by
  simp [specRound]
  norm_num [Int.floor_eq_iff]

/-- The mathematical rounding of `1.3`. -/
theorem specRound_thirteen_tenths : specRound (13 / 10) = 1 := by
  simp [specRound]
  norm_num [Int.floor_eq_iff]

/-- The mathematical rounding of `0.6`. -/
theorem specRound_six_tenths : specRound (6 / 10) = 1 := by
  simp [specRound]
  norm_num [Int.floor_eq_iff]

/-- The sample `0x1.999996p-3` is a binary32 value. -/
theorem isFloat_boundary : isFloat (13421771 / 67108864) := by
  have := isFloat_int_mul_zpow 13421771 (-26) (by norm_num) (by norm_num) (by norm_num)
  norm_num at this
  exact this

/-- The mathematical rounding of the sample `0x1.999996p-3`. -/
theorem specRound_boundary : specRound (13421771 / 67108864) = 0 := by
  simp [specRound]
  norm_num [Int.floor_eq_iff]

/-- The binary32 difference of `1` and the sample `0x1.999996p-3` is the
binary32 value nearest to `0.8`: the exact difference is `2^-26` above it. -/
theorem fl32_boundary :
    fl32 (((1 : Int) : ℚ) - 13421771 / 67108864) = 13421773 / 16777216 := by
  unfold fl32
  rw [if_pos (by norm_num)]
  rw [roundMag_eq _ (-24) 13421773 (by norm_num) (by norm_num) (by norm_num)
    (roundEven_of_lt _ _ (by norm_num) (by norm_num))]
  norm_num

/-- The exact difference of `1` and the sample `0x1.999996p-3` exceeds the
binary32 value nearest to `0.8`. -/
theorem lt_abs_boundary :
    (13421773 / 16777216 : ℚ) < |((1 : Int) : ℚ) - 13421771 / 67108864| := by
  norm_num [lt_abs]

/-- Evaluation of the step at the boundary of the binary32 test: from the state
`(1, 0.8f)` the sample `0x1.999996p-3` fails the test and the step returns
`1`. -/
theorem hystRound_boundary :
    (HystRound.new 1 (13421773 / 16777216)).hystRound (13421771 / 67108864)
      = (1, HystRound.new 1 (13421773 / 16777216)) := by
  apply step_keep_of_test
  rw [fl32_boundary, abs_of_pos (by norm_num)]

/-- The facts about the boundary input gathered: threshold and sample are
binary32 values, the exact difference exceeds the threshold, the rounded
sample is `0`, and the step returns `1`. -/
theorem boundary_facts :
    isFloat (13421773 / 16777216) ∧ isFloat (13421771 / 67108864) ∧
    (13421773 / 16777216 : ℚ) < |((1 : Int) : ℚ) - 13421771 / 67108864| ∧
    specRound (13421771 / 67108864) = 0 ∧
    (HystRound.new 1 (13421773 / 16777216)).hystRound (13421771 / 67108864)
      = (1, HystRound.new 1 (13421773 / 16777216)) :=
  ⟨isFloat_08f, isFloat_boundary, lt_abs_boundary, specRound_boundary, hystRound_boundary⟩

/-! ## C1: no change below the threshold -/

/-- C1: for every `float` threshold `t`, when the sample is within the
threshold of the stored value (`|v - s| ≤ t`), `hystRound` returns the stored
value `v` and leaves the state as it was. -/
theorem hystRound_no_change (v : Int) (t s : ℚ) (ht : isFloat t) (h : |(v : ℚ) - s| ≤ t) :
    (HystRound.new v t).hystRound s = (v, HystRound.new v t) :=
  step_keep v t s ht h

/-- The two scenarios of the specification for C1: `new(0, 0.8)` then
`step(0.3)` returns `0`, and `new(-5, 1.0)` then `step(-5.9)` returns `-5`;
the threshold `0.8` is its `float` value. -/
theorem hystRound_no_change_witness :
    (isFloat (13421773 / 16777216) ∧ |((0 : Int) : ℚ) - 3 / 10| ≤ 13421773 / 16777216 ∧
      (HystRound.new 0 (13421773 / 16777216)).hystRound (3 / 10)
        = (0, HystRound.new 0 (13421773 / 16777216))) ∧
    (isFloat 1 ∧ |((-5 : Int) : ℚ) - (-59 / 10)| ≤ 1 ∧
      (HystRound.new (-5) 1).hystRound (-59 / 10) = (-5, HystRound.new (-5) 1)) :=
  ⟨⟨isFloat_08f, by norm_num [abs_le],
      hystRound_no_change 0 (13421773 / 16777216) (3 / 10) isFloat_08f
        (by norm_num [abs_le])⟩,
   ⟨isFloat_one, by norm_num [abs_le],
      hystRound_no_change (-5) 1 (-59 / 10) isFloat_one (by norm_num [abs_le])⟩⟩

/-! ## C2: update above the threshold -/

/-- C2 as stated fails.  From the stored value `0` with threshold `0.8` the
sample `40000` exceeds the threshold, its rounded value is `40000`, and
`hystRound` returns and stores `-25536`.  And from the stored value `1` with
the `float` threshold `0.8f` the `float` sample `0x1.999996p-3` has
`|v - s| > t` and the rounded value `0`, and `hystRound` returns `1`, because
the difference computed in binary32 is the threshold itself. -/
theorem hystRound_update_counterexample :
    ((HystRound.new 0 (8 / 10)).hystRound 40000
        = (-25536, HystRound.new (-25536) (8 / 10)) ∧
      specRound 40000 = 40000) ∧
    (isFloat (13421773 / 16777216) ∧ isFloat (13421771 / 67108864) ∧
      (13421773 / 16777216 : ℚ) < |((1 : Int) : ℚ) - 13421771 / 67108864| ∧
      specRound (13421771 / 67108864) = 0 ∧
      (HystRound.new 1 (13421773 / 16777216)).hystRound (13421771 / 67108864)
        = (1, HystRound.new 1 (13421773 / 16777216))) ∧
    ¬ (∀ (v : Int) (t s : ℚ), isInt16 v → t < |(v : ℚ) - s| →
        (HystRound.new v t).hystRound s
          = (specRound s, HystRound.new (specRound s) t)) := by
  refine ⟨⟨hystRound_40000, specRound_40000⟩, boundary_facts, fun hall => ?_⟩
  have h := hall 0 (8 / 10) 40000 (by unfold isInt16; omega) (by norm_num [abs_lt])
  rw [hystRound_40000, specRound_40000] at h
  simp [HystRound.new] at h

/-- C2, amended: when the difference computed in binary32, `fl32 (v - s)`,
exceeds the threshold in magnitude and the rounded value of the sample (half
away from zero) is an `int16_t`, `hystRound` returns the rounded value and the
new stored value is the rounded value.  For a `float` threshold the test
succeeds only if `|v - s| > t`, and it succeeds whenever `|v - s|` reaches a
`float` above `t`. -/
theorem hystRound_update (v : Int) (t s : ℚ) :
    (t < |fl32 ((v : ℚ) - s)| → isInt16 (specRound s) →
      (HystRound.new v t).hystRound s
        = (specRound s, HystRound.new (specRound s) t)) ∧
    (isFloat t → t < |fl32 ((v : ℚ) - s)| → t < |(v : ℚ) - s|) ∧
    (∀ b, isFloat b → t < b → b ≤ |(v : ℚ) - s| → t < |fl32 ((v : ℚ) - s)|) :=
  ⟨fun h hr => step_round v t s h hr,
   fun ht h => lt_abs_of_lt_abs_fl32 t _ ht h,
   fun b hb htb h => lt_of_lt_of_le htb (le_abs_fl32 b _ hb h)⟩

/-- The amended C2 at the triggering samples `1.5` and `-1.5` from the state
`(0, 0.8f)`: the results are `2` and `-2`. -/
theorem hystRound_update_witness :
    (isInt16 (specRound (3 / 2)) ∧ specRound (3 / 2) = 2 ∧
      (HystRound.new 0 (13421773 / 16777216)).hystRound (3 / 2)
        = (specRound (3 / 2), HystRound.new (specRound (3 / 2)) (13421773 / 16777216))) ∧
    (isInt16 (specRound (-3 / 2)) ∧ specRound (-3 / 2) = -2 ∧
      (HystRound.new 0 (13421773 / 16777216)).hystRound (-3 / 2)
        = (specRound (-3 / 2),
            HystRound.new (specRound (-3 / 2)) (13421773 / 16777216))) :=
  have hr1 : isInt16 (specRound (3 / 2)) := by
    rw [specRound_three_halves.1]; unfold isInt16; omega
  have hr2 : isInt16 (specRound (-3 / 2)) := by
    rw [specRound_three_halves.2]; unfold isInt16; omega
  have h1 : (13421773 / 16777216 : ℚ) < |fl32 (((0 : Int) : ℚ) - 3 / 2)| :=
    (hystRound_update 0 (13421773 / 16777216) (3 / 2)).2.2 1 isFloat_one
      (by norm_num) (by norm_num [le_abs])
  have h2 : (13421773 / 16777216 : ℚ) < |fl32 (((0 : Int) : ℚ) - (-3 / 2))| :=
    (hystRound_update 0 (13421773 / 16777216) (-3 / 2)).2.2 1 isFloat_one
      (by norm_num) (by norm_num [le_abs])
  ⟨⟨hr1, specRound_three_halves.1,
      (hystRound_update 0 (13421773 / 16777216) (3 / 2)).1 h1 hr1⟩,
   ⟨hr2, specRound_three_halves.2,
      (hystRound_update 0 (13421773 / 16777216) (-3 / 2)).1 h2 hr2⟩⟩

/-! ## C3: the worked trace of the specification -/

/-- C3: the filter constructed with initial value `0` and threshold `0.8`
(the value of `HYST_FACTOR`), stepped in order with the samples `0.3`, `1.5`,
`1.3`, `0.9`, each call starting from the state left by the previous one,
returns `0`, `2`, `2`, `1`. -/
theorem hystRoundSeq_trace :
    HYST_FACTOR = 8 / 10 ∧
    (HystRound.new 0 (8 / 10)).hystRoundSeq [3 / 10, 3 / 2, 13 / 10, 9 / 10]
      = ([0, 2, 2, 1], HystRound.new 1 (8 / 10)) := by
  refine ⟨rfl, ?_⟩
  have e1 : (HystRound.new 0 (8 / 10)).hystRound (3 / 10)
      = (0, HystRound.new 0 (8 / 10)) :=
    step_keep_of_bound 0 _ _ (1 / 2) isFloat_one_half (by norm_num [abs_le]) (by norm_num)
  have r2 : specRound (3 / 2) = 2 := specRound_three_halves.1
  have e2 : (HystRound.new 0 (8 / 10)).hystRound (3 / 2)
      = (2, HystRound.new 2 (8 / 10)) := by
    have := step_round_of_bound 0 (8 / 10) (3 / 2) 1 isFloat_one (by norm_num [le_abs])
      (by norm_num) (by rw [r2]; unfold isInt16; omega)
    rwa [r2] at this
  have e3 : (HystRound.new 2 (8 / 10)).hystRound (13 / 10)
      = (2, HystRound.new 2 (8 / 10)) :=
    step_keep_of_bound 2 _ _ (3 / 4) isFloat_three_quarters (by norm_num [abs_le])
      (by norm_num)
  have r4 : specRound (9 / 10) = 1 := specRound_nine_tenths
  have e4 : (HystRound.new 2 (8 / 10)).hystRound (9 / 10)
      = (1, HystRound.new 1 (8 / 10)) := by
    have := step_round_of_bound 2 (8 / 10) (9 / 10) 1 isFloat_one (by norm_num [le_abs])
      (by norm_num) (by rw [r4]; unfold isInt16; omega)
    rwa [r4] at this
  simp only [HystRound.hystRoundSeq, e1, e2, e3, e4]

/-! ## C4: the threshold `0.5` -/

/-- Evaluation of the step at a tie: from the state `(0, 0.5)` the sample
`0.5` is within the threshold and the step returns `0`. -/
theorem hystRound_tie :
    (HystRound.new 0 (1 / 2)).hystRound (1 / 2) = (0, HystRound.new 0 (1 / 2)) :=
  step_keep 0 _ _ isFloat_one_half (by norm_num [abs_le])

/-- The mathematical rounding of `0.5`. -/
theorem specRound_one_half : specRound (1 / 2) = 1 := by
  simp [specRound]
  norm_num [Int.floor_eq_iff]

/-- Evaluation of the step with threshold `0.5` on a sample whose rounded value
is not an `int16_t`: from the state `(0, 0.5)` the sample `40000` is stored as
`-25536`. -/
theorem hystRound_half_40000 :
    (HystRound.new 0 (1 / 2)).hystRound 40000
      = (-25536, HystRound.new (-25536) (1 / 2)) := by
  rw [hystRound_of_exceeds _ _ (exceeds_of_le_abs _ _ 1 isFloat_one
    (by norm_num [HystRound.new, le_abs]) (by norm_num [HystRound.new])), specRound_40000]
  rfl

/-- The binary32 difference of `1` and the sample `0.5 - 2^-25` is `0.5`: the
exact difference `0.5 + 2^-25` is a tie between two binary32 values. -/
theorem fl32_near_tie : fl32 (((1 : Int) : ℚ) - 16777215 / 33554432) = 1 / 2 := by
  unfold fl32
  rw [if_pos (by norm_num)]
  rw [roundMag_eq _ (-24) 8388608 (by norm_num) (by norm_num) (by norm_num)
    (roundEven_tie_even _ _ (by norm_num) (by norm_num))]
  norm_num

/-- The mathematical rounding of the sample `0.5 - 2^-25`. -/
theorem specRound_near_tie : specRound (16777215 / 33554432) = 0 := by
  simp [specRound]
  norm_num [Int.floor_eq_iff]

/-- Evaluation of the step next to a tie: from the state `(1, 0.5)` the `float`
sample `0.5 - 2^-25` fails the binary32 test and the step returns `1`. -/
theorem hystRound_near_tie :
    (HystRound.new 1 (1 / 2)).hystRound (16777215 / 33554432)
      = (1, HystRound.new 1 (1 / 2)) := by
  apply step_keep_of_test
  rw [fl32_near_tie, abs_of_pos (by norm_num)]

/-- C4 as stated fails: with threshold `0.5` and stored value `0` the sample
`0.5` has rounded value `1` (half away from zero), and `hystRound` returns `0`;
with stored value `1` the sample `0.5 - 2^-25` has rounded value `0`, and
`hystRound` returns `1`, because the difference computed in binary32 is `0.5`;
and the sample `40000`, whose rounded value is not an `int16_t`, gives
`-25536`. -/
theorem hystRound_half_counterexample :
    ((HystRound.new 0 (1 / 2)).hystRound (1 / 2) = (0, HystRound.new 0 (1 / 2)) ∧
      specRound (1 / 2) = 1) ∧
    ((HystRound.new 1 (1 / 2)).hystRound (16777215 / 33554432)
        = (1, HystRound.new 1 (1 / 2)) ∧
      specRound (16777215 / 33554432) = 0) ∧
    ((HystRound.new 0 (1 / 2)).hystRound 40000
        = (-25536, HystRound.new (-25536) (1 / 2)) ∧
      specRound 40000 = 40000) ∧
    ¬ (∀ (v : Int) (s : ℚ), isInt16 v →
        ((HystRound.new v (1 / 2)).hystRound s).1 = specRound s) := by
  refine ⟨⟨hystRound_tie, specRound_one_half⟩, ⟨hystRound_near_tie, specRound_near_tie⟩,
    ⟨hystRound_half_40000, specRound_40000⟩, fun hall => ?_⟩
  have h := hall 0 (1 / 2) (by unfold isInt16; omega)
  rw [hystRound_tie, specRound_one_half] at h
  simp at h

/-- C4, amended: with threshold `0.5`, for every stored value `v` and every
sample `s` whose rounded value is an `int16_t`, `hystRound` returns (and
stores) the rounded value of `s`, half away from zero, unless the difference
computed in binary32, `fl32 (v - s)`, is exactly half a unit in magnitude; in
that case it returns `v` and changes nothing. -/
theorem hystRound_half (v : Int) (s : ℚ) (hr : isInt16 (specRound s)) :
    (|fl32 ((v : ℚ) - s)| ≠ 1 / 2 →
      (HystRound.new v (1 / 2)).hystRound s
        = (specRound s, HystRound.new (specRound s) (1 / 2))) ∧
    (|fl32 ((v : ℚ) - s)| = 1 / 2 →
      (HystRound.new v (1 / 2)).hystRound s = (v, HystRound.new v (1 / 2))) := by
  constructor
  · intro hne
    rcases lt_or_gt_of_ne hne with hlt | hgt
    · rw [specRound_eq_of_abs_lt v s (abs_lt_of_abs_fl32_lt _ _ isFloat_one_half hlt)]
      exact step_keep_of_test v _ s hlt.le
    · exact step_round v _ s hgt hr
  · intro heq
    exact step_keep_of_test v _ s heq.le

/-- The mathematical rounding of `2.5`. -/
theorem specRound_five_halves : specRound (5 / 2) = 3 := by
  simp [specRound]
  norm_num [Int.floor_eq_iff]

/-- The binary32 difference of `7` and `2.5` is exact. -/
theorem fl32_nine_halves : fl32 (((7 : Int) : ℚ) - 5 / 2) = 9 / 2 := by
  have := fl32_int_mul_zpow 9 (-1) (by norm_num) (by norm_num)
  norm_num at this ⊢
  exact this

/-- The amended C4 at the stored value `7` and the sample `2.5`: the step
returns `3`. -/
theorem hystRound_half_witness :
    isInt16 (specRound (5 / 2)) ∧ |fl32 (((7 : Int) : ℚ) - 5 / 2)| ≠ 1 / 2 ∧
      specRound (5 / 2) = 3 ∧
      (HystRound.new 7 (1 / 2)).hystRound (5 / 2)
        = (specRound (5 / 2), HystRound.new (specRound (5 / 2)) (1 / 2)) :=
  have hr : isInt16 (specRound (5 / 2)) := by
    rw [specRound_five_halves]; unfold isInt16; omega
  have hne : |fl32 (((7 : Int) : ℚ) - 5 / 2)| ≠ 1 / 2 := by
    rw [fl32_nine_halves, abs_of_pos (by norm_num)]
    norm_num
  ⟨hr, hne, specRound_five_halves, (hystRound_half 7 (5 / 2) hr).1 hne⟩

/-! ## C5: a constant sample fed repeatedly -/

/-- Evaluation of the step inside the dead band: from the state `(0, 0.8)`
the sample `0.6` is within the threshold and the step returns `0`. -/
theorem hystRound_in_band :
    (HystRound.new 0 (8 / 10)).hystRound (6 / 10) = (0, HystRound.new 0 (8 / 10)) :=
  step_keep_of_bound 0 _ _ (3 / 4) isFloat_three_quarters (by norm_num [abs_le])
    (by norm_num)

/-- C5 as stated fails.  From the stored value `0` with threshold `0.8` the
constant sample `0.6` has rounded value `1`, and after one call, and after any
number of calls, the stored value is still `0`.  From the stored value `1` with
the `float` threshold `0.8f` the constant `float` sample `0x1.999996p-3` has
`|v - s| > t` and rounded value `0`, and every call returns `1`.  And the
constant sample `40000`, whose rounded value is not an `int16_t`, leaves
`-25536` after the first call. -/
theorem constant_sample_counterexample :
    (specRound (6 / 10) = 1 ∧
      ∀ n : Nat, (HystRound.new 0 (8 / 10)).hystRoundSeq (List.replicate n (6 / 10))
        = (List.replicate n 0, HystRound.new 0 (8 / 10))) ∧
    ((13421773 / 16777216 : ℚ) < |((1 : Int) : ℚ) - 13421771 / 67108864| ∧
      specRound (13421771 / 67108864) = 0 ∧
      ∀ n : Nat, (HystRound.new 1 (13421773 / 16777216)).hystRoundSeq
          (List.replicate n (13421771 / 67108864))
        = (List.replicate n 1, HystRound.new 1 (13421773 / 16777216))) ∧
    (specRound 40000 = 40000 ∧
      (HystRound.new 0 (8 / 10)).hystRoundSeq (List.replicate 1 40000)
        = ([-25536], HystRound.new (-25536) (8 / 10))) ∧
    ¬ (∀ (v : Int) (t s : ℚ) (n : Nat), isInt16 v → 0 ≤ t → 1 ≤ n →
        ((HystRound.new v t).hystRoundSeq (List.replicate n s)).2._value = specRound s) := by
  have hrun := seq_replicate_fixed _ _ _ hystRound_in_band
  refine ⟨⟨specRound_six_tenths, hrun⟩,
    ⟨lt_abs_boundary, specRound_boundary, seq_replicate_fixed _ _ _ hystRound_boundary⟩,
    ⟨specRound_40000, by simp only [List.replicate, HystRound.hystRoundSeq, hystRound_40000]⟩,
    fun hall => ?_⟩
  have h := hall 0 (8 / 10) (6 / 10) 1 (by unfold isInt16; omega) (by norm_num) le_rfl
  rw [hrun 1, specRound_six_tenths] at h
  simp [HystRound.new] at h

/-- C5, amended: for every threshold `t` and every constant sample `s` fed `n ≥ 1`
times, if the test of the first call succeeds (the difference computed in
binary32, `fl32 (v - s)`, exceeds `t` in magnitude) and the rounded value of `s`
is an `int16_t`, then the first call and every later call return the rounded
value of `s`, which is the stored value from the first call on; if the test of
the first call fails, every call returns `v` and the stored value stays `v`. -/
theorem constant_sample (v : Int) (t s : ℚ) (n : Nat) (hn : 1 ≤ n) :
    (t < |fl32 ((v : ℚ) - s)| → isInt16 (specRound s) →
      (HystRound.new v t).hystRoundSeq (List.replicate n s)
        = (List.replicate n (specRound s), HystRound.new (specRound s) t)) ∧
    (|fl32 ((v : ℚ) - s)| ≤ t →
      (HystRound.new v t).hystRoundSeq (List.replicate n s)
        = (List.replicate n v, HystRound.new v t)) := by
  constructor
  · intro h hr
    obtain ⟨m, rfl⟩ : ∃ m, n = m + 1 := ⟨n - 1, by omega⟩
    rw [List.replicate_succ, hystRoundSeq_cons _ _ s _ _ (step_round v t s h hr),
      seq_replicate_fixed _ s _ (step_fixed t s hr) m]
    rfl
  · intro h
    exact seq_replicate_fixed _ s _ (step_keep_of_test v t s h) n

/-- The amended C5 from the state `(0, 0.8f)`: the constant sample `1.5` fed
three times gives `2, 2, 2`, and from the state `(1, 0.8f)` the constant sample
`0x1.999996p-3` gives `1, 1, 1`. -/
theorem constant_sample_witness :
    (1 ≤ 3 ∧ isInt16 (specRound (3 / 2)) ∧
      (HystRound.new 0 (13421773 / 16777216)).hystRoundSeq (List.replicate 3 (3 / 2))
        = (List.replicate 3 (specRound (3 / 2)),
            HystRound.new (specRound (3 / 2)) (13421773 / 16777216))) ∧
    (|fl32 (((1 : Int) : ℚ) - 13421771 / 67108864)| ≤ 13421773 / 16777216 ∧
      (HystRound.new 1 (13421773 / 16777216)).hystRoundSeq
          (List.replicate 3 (13421771 / 67108864))
        = (List.replicate 3 1, HystRound.new 1 (13421773 / 16777216))) :=
  have hr : isInt16 (specRound (3 / 2)) := by
    rw [specRound_three_halves.1]; unfold isInt16; omega
  have h1 : (13421773 / 16777216 : ℚ) < |fl32 (((0 : Int) : ℚ) - 3 / 2)| :=
    lt_of_lt_of_le (by norm_num) (le_abs_fl32 1 _ isFloat_one (by norm_num [le_abs]))
  have h2 : |fl32 (((1 : Int) : ℚ) - 13421771 / 67108864)| ≤ 13421773 / 16777216 := by
    rw [fl32_boundary, abs_of_pos (by norm_num)]
  ⟨⟨by omega, hr, (constant_sample 0 (13421773 / 16777216) (3 / 2) 3 (by omega)).1 h1 hr⟩,
   ⟨h2, (constant_sample 1 (13421773 / 16777216) (13421771 / 67108864) 3 (by omega)).2 h2⟩⟩

/-! ## C6: idempotence at the fixed point -/

/-- C6: for every `float` threshold `t`, when the stored value is the rounded
sample and that value is within the threshold of the sample, each of any
number `n` of repeated calls with the sample (in particular `n ≥ 1`) returns
the rounded sample and the stored value stays the rounded sample. -/
theorem fixed_point_idempotent (t s : ℚ) (n : Nat) (ht : isFloat t)
    (h : |((specRound s : Int) : ℚ) - s| ≤ t) :
    (HystRound.new (specRound s) t).hystRoundSeq (List.replicate n s)
      = (List.replicate n (specRound s), HystRound.new (specRound s) t) :=
  seq_replicate_fixed _ s _ (step_keep _ t s ht h) n

/-- C6 at the threshold `0.8f` and the sample `1.3`, with the stored value `1`,
called three times. -/
theorem fixed_point_idempotent_witness :
    isFloat (13421773 / 16777216) ∧ specRound (13 / 10) = 1 ∧
    |((specRound (13 / 10) : Int) : ℚ) - 13 / 10| ≤ 13421773 / 16777216 ∧
      (HystRound.new (specRound (13 / 10)) (13421773 / 16777216)).hystRoundSeq
          (List.replicate 3 (13 / 10))
        = (List.replicate 3 (specRound (13 / 10)),
            HystRound.new (specRound (13 / 10)) (13421773 / 16777216)) :=
  have hs : specRound (13 / 10) = 1 := specRound_thirteen_tenths
  have h : |((specRound (13 / 10) : Int) : ℚ) - 13 / 10| ≤ 13421773 / 16777216 := by
    rw [hs]; norm_num [abs_le]
  ⟨isFloat_08f, hs, h,
    fixed_point_idempotent (13421773 / 16777216) (13 / 10) 3 isFloat_08f h⟩

/-! ## C7: provenance of the stored value -/

/-- C7 as stated fails.  From the initial value `0` with threshold `0.8` the
single sample `40000` exceeds the threshold, and the stored value after the
step is `-25536`, neither the initial value nor the rounded sample `40000`.
And from the initial value `1` with the `float` threshold `0.8f` the single
`float` sample `0x1.999996p-3` has `|v0 - s| > t` and rounded value `0`, and the
stored value after the step is still `1`. -/
theorem stored_provenance_counterexample :
    ((HystRound.new 0 (8 / 10)).hystRoundSeq [40000]
        = ([-25536], HystRound.new (-25536) (8 / 10)) ∧
      specRound 40000 = 40000) ∧
    ((13421773 / 16777216 : ℚ) < |((1 : Int) : ℚ) - 13421771 / 67108864| ∧
      specRound (13421771 / 67108864) = 0 ∧
      (HystRound.new 1 (13421773 / 16777216)).hystRoundSeq [13421771 / 67108864]
        = ([1], HystRound.new 1 (13421773 / 16777216))) ∧
    ¬ (∀ (v0 : Int) (t : ℚ) (ss : List ℚ), isInt16 v0 →
        (((HystRound.new v0 t).hystRoundSeq ss).2._value = v0 ∨
          ∃ s ∈ ss, ((HystRound.new v0 t).hystRoundSeq ss).2._value = specRound s)) := by
  have hrun : (HystRound.new 0 (8 / 10)).hystRoundSeq [40000]
      = ([-25536], HystRound.new (-25536) (8 / 10)) := by
    simp only [HystRound.hystRoundSeq, hystRound_40000]
  refine ⟨⟨hrun, specRound_40000⟩, ⟨lt_abs_boundary, specRound_boundary,
    by simp only [HystRound.hystRoundSeq, hystRound_boundary]⟩, fun hall => ?_⟩
  have hv := hall 0 (8 / 10) [40000] (by unfold isInt16; omega)
  rw [hrun] at hv
  simp [HystRound.new, specRound_40000] at hv

/-- C7, amended: for every initial value `v0`, threshold `t` and finite
sequence of samples whose rounded values are all `int16_t`, the stored value
after the run is the rounded sample of the last step whose test succeeded (the
difference between the value stored before that step and the sample, computed
in binary32, exceeds `t` in magnitude), and `v0` when no test succeeded. -/
theorem stored_provenance (v0 : Int) (t : ℚ) (ss : List ℚ)
    (hr : ∀ s ∈ ss, isInt16 (specRound s)) :
    ((∃ k, k < ss.length ∧ (HystRound.new v0 t).triggeredAt ss k = true ∧
        (∀ j, k < j → j < ss.length → (HystRound.new v0 t).triggeredAt ss j = false) ∧
        ((HystRound.new v0 t).hystRoundSeq ss).2._value = specRound (ss.getD k 0)) ∨
      ((∀ j, j < ss.length → (HystRound.new v0 t).triggeredAt ss j = false) ∧
        ((HystRound.new v0 t).hystRoundSeq ss).2._value = v0)) :=
  provenance_aux ss hr (HystRound.new v0 t)

/-- The amended C7 on the samples `1.5`, `0.9` from the state `(0, 0.8)`. -/
theorem stored_provenance_witness :
    (∀ s ∈ [(3 / 2 : ℚ), 9 / 10], isInt16 (specRound s)) ∧
    ((∃ k, k < [(3 / 2 : ℚ), 9 / 10].length ∧
        (HystRound.new 0 (8 / 10)).triggeredAt [3 / 2, 9 / 10] k = true ∧
        (∀ j, k < j → j < [(3 / 2 : ℚ), 9 / 10].length →
          (HystRound.new 0 (8 / 10)).triggeredAt [3 / 2, 9 / 10] j = false) ∧
        ((HystRound.new 0 (8 / 10)).hystRoundSeq [3 / 2, 9 / 10]).2._value
          = specRound ([(3 / 2 : ℚ), 9 / 10].getD k 0)) ∨
      ((∀ j, j < [(3 / 2 : ℚ), 9 / 10].length →
          (HystRound.new 0 (8 / 10)).triggeredAt [3 / 2, 9 / 10] j = false) ∧
        ((HystRound.new 0 (8 / 10)).hystRoundSeq [3 / 2, 9 / 10]).2._value = 0)) :=
  have hr : ∀ s ∈ [(3 / 2 : ℚ), 9 / 10], isInt16 (specRound s) := by
    intro s hs
    simp only [List.mem_cons, List.mem_singleton, List.not_mem_nil, or_false] at hs
    rcases hs with rfl | rfl
    · rw [specRound_three_halves.1]; unfold isInt16; omega
    · rw [specRound_nine_tenths]; unfold isInt16; omega
  ⟨hr, stored_provenance 0 (8 / 10) [3 / 2, 9 / 10] hr⟩

/-! ## C8: totality -/

/-- C9: the constructor stores exactly the given initial value and threshold;
a call of `hystRound` leaves the threshold as it was and changes no field other
than the stored value, which becomes the returned value; and so does a whole
run of the control loop. -/
theorem threshold_constant (v : Int) (t : ℚ) (self : HystRound) (s : ℚ) (ss : List ℚ) :
    ((HystRound.new v t)._value = v ∧ (HystRound.new v t)._hystfactor = t) ∧
    (∀ r st, self.hystRound s = (r, st) →
      st._hystfactor = self._hystfactor ∧ st = { self with _value := r }) ∧
    (∀ outs final, self.hystRoundSeq ss = (outs, final) →
      final._hystfactor = self._hystfactor) := by
  refine ⟨⟨rfl, rfl⟩, fun r st h => ?_, fun outs final h => ?_⟩
  · have hst := hystRound_frame self st s r h
    exact ⟨by rw [hst], hst⟩
  · have := hystRoundSeq_hystfactor ss self
    rw [h] at this
    exact this

/-- C9 on the step from `(0, 0.8)` with the sample `40000`: the threshold of the
state after the call is the threshold before it. -/
theorem threshold_constant_witness :
    (HystRound.new 0 (8 / 10)).hystRound 40000
        = (-25536, HystRound.new (-25536) (8 / 10)) ∧
      (HystRound.new (-25536) (8 / 10))._hystfactor = (HystRound.new 0 (8 / 10))._hystfactor :=
  ⟨hystRound_40000,
    ((threshold_constant 0 0 (HystRound.new 0 (8 / 10)) 40000 []).2.1 (-25536)
      (HystRound.new (-25536) (8 / 10)) hystRound_40000).1⟩

/-! ## C10: the dead band -/

/-- Evaluation of a run on two samples that are `0.2` apart and whose rounded
values are not `int16_t`: from the state `(0, 0.8)` the samples `40000.4`,
`40000.6` give the outputs `-25536`, `-25535`. -/
theorem hystRoundSeq_chatter :
    (HystRound.new 0 (8 / 10)).hystRoundSeq [400004 / 10, 400006 / 10]
      = ([-25536, -25535], HystRound.new (-25535) (8 / 10)) := by
  have r1 : specRound (400004 / 10) = 40000 := by
    simp [specRound]
    norm_num [Int.floor_eq_iff]
  have r2 : specRound (400006 / 10) = 40001 := by
    simp [specRound]
    norm_num [Int.floor_eq_iff]
  have e1 : (HystRound.new 0 (8 / 10)).hystRound (400004 / 10)
      = (-25536, HystRound.new (-25536) (8 / 10)) := by
    rw [hystRound_of_exceeds _ _ (exceeds_of_le_abs _ _ 1 isFloat_one
      (by norm_num [HystRound.new, le_abs]) (by norm_num [HystRound.new])), r1]
    rfl
  have e2 : (HystRound.new (-25536) (8 / 10)).hystRound (400006 / 10)
      = (-25535, HystRound.new (-25535) (8 / 10)) := by
    rw [hystRound_of_exceeds _ _ (exceeds_of_le_abs _ _ 1 isFloat_one
      (by norm_num [HystRound.new, le_abs]) (by norm_num [HystRound.new])), r2]
    rfl
  simp only [HystRound.hystRoundSeq, e1, e2]

/-- C10 as stated fails: with threshold `0.8` and stored value `0`, the samples
`40000.4`, `40000.6` differ by `0.2 ≤ 0.8 - 0.5`, and the outputs are `-25536`,
`-25535`: the output changes twice, and no index `k` splits the outputs into
copies of `0` followed by copies of the rounded sample number `k`. -/
theorem dead_band_counterexample :
    (HystRound.new 0 (8 / 10)).hystRoundSeq [400004 / 10, 400006 / 10]
      = ([-25536, -25535], HystRound.new (-25535) (8 / 10)) ∧
    ¬ (∀ (v : Int) (t : ℚ) (ss : List ℚ), isInt16 v → 1 / 2 ≤ t →
        (∀ a ∈ ss, ∀ b ∈ ss, |a - b| ≤ t - 1 / 2) →
        ∃ k, k ≤ ss.length ∧ ∃ final, (HystRound.new v t).hystRoundSeq ss
          = (List.replicate k v
              ++ List.replicate (ss.length - k) (specRound (ss.getD k 0)), final)) := by
  refine ⟨hystRoundSeq_chatter, fun hall => ?_⟩
  have hpair : ∀ a ∈ [(400004 / 10 : ℚ), 400006 / 10],
      ∀ b ∈ [(400004 / 10 : ℚ), 400006 / 10], |a - b| ≤ 8 / 10 - 1 / 2 := by
    intro a ha b hb
    simp only [List.mem_cons, List.mem_singleton, List.not_mem_nil, or_false] at ha hb
    rcases ha with rfl | rfl <;> rcases hb with rfl | rfl <;> norm_num [abs_le]
  obtain ⟨k, hk, final, h⟩ := hall 0 (8 / 10) [400004 / 10, 400006 / 10]
    (by unfold isInt16; omega) (by norm_num) hpair
  rw [hystRoundSeq_chatter] at h
  simp only [Prod.mk.injEq] at h
  have hlist := h.1
  simp only [List.length_cons, List.length_nil] at hk hlist
  interval_cases k <;> simp [List.replicate] at hlist
  omega

/-- C10, amended: for every stored value `v`, every `float` threshold `t` and
every finite sequence of samples whose pairwise differences are at most
`t - 0.5` (which for a non-empty sequence makes `t ≥ 0.5`) and whose rounded
values are all `int16_t`, the output changes at most once over the sequence:
there is an index `k` such that all outputs before step `k` are `v` and all
outputs from step `k` on are the rounded sample number `k` (`k` is the length
of the sequence when the output never changes). -/
theorem dead_band (v : Int) (t : ℚ) (ss : List ℚ) (ht : isFloat t)
    (hpair : ∀ a ∈ ss, ∀ b ∈ ss, |a - b| ≤ t - 1 / 2)
    (hr : ∀ s ∈ ss, isInt16 (specRound s)) :
    ∃ k, k ≤ ss.length ∧ ∃ final, (HystRound.new v t).hystRoundSeq ss
      = (List.replicate k v
          ++ List.replicate (ss.length - k) (specRound (ss.getD k 0)), final) := by
  induction ss with
  | nil => exact ⟨0, le_rfl, HystRound.new v t, rfl⟩
  | cons s ss ih =>
    by_cases hex : t < |fl32 ((v : ℚ) - s)|
    · -- the first step updates, and every later sample is within the threshold
      have hrs : isInt16 (specRound s) := hr s (List.mem_cons_self s ss)
      have hkeep : ∀ b ∈ ss, |((specRound s : Int) : ℚ) - b| ≤ t := by
        intro b hb
        have h1 := abs_specRound_sub_le s
        have h2 := hpair s (List.mem_cons_self s ss) b (List.mem_cons_of_mem s hb)
        calc |((specRound s : Int) : ℚ) - b|
            = |(((specRound s : Int) : ℚ) - s) + (s - b)| := by ring_nf
          _ ≤ |((specRound s : Int) : ℚ) - s| + |s - b| := abs_add _ _
          _ ≤ 1 / 2 + (t - 1 / 2) := add_le_add h1 h2
          _ = t := by ring
      refine ⟨0, Nat.zero_le _, HystRound.new (specRound s) t, ?_⟩
      rw [hystRoundSeq_cons _ _ s ss _ (step_round v t s hex hrs),
        seq_all_keep (specRound s) t ss ht hkeep]
      simp only [List.replicate_zero, List.nil_append, List.length_cons, Nat.sub_zero,
        List.replicate_succ, List.getD_cons_zero]
    · -- the first step keeps `v`; the rest of the run is the same problem
      obtain ⟨k, hk, final, hrun⟩ := ih
        (fun a ha b hb => hpair a (List.mem_cons_of_mem s ha) b (List.mem_cons_of_mem s hb))
        (fun x hx => hr x (List.mem_cons_of_mem s hx))
      refine ⟨k + 1, by simpa using hk, final, ?_⟩
      rw [hystRoundSeq_cons _ _ s ss _ (step_keep_of_test v t s (not_lt.mp hex)), hrun]
      simp only [List.replicate_succ, List.cons_append, List.length_cons,
        Nat.add_sub_add_right, List.getD_cons_succ]

/-- The amended C10 from the state `(0, 0.8f)` on the samples `1.3`, `1.5`,
which are `0.2` apart. -/
theorem dead_band_witness :
    isFloat (13421773 / 16777216) ∧
    (∀ a ∈ [(13 / 10 : ℚ), 3 / 2], ∀ b ∈ [(13 / 10 : ℚ), 3 / 2],
      |a - b| ≤ 13421773 / 16777216 - 1 / 2) ∧
    (∀ s ∈ [(13 / 10 : ℚ), 3 / 2], isInt16 (specRound s)) ∧
    ∃ k, k ≤ [(13 / 10 : ℚ), 3 / 2].length ∧ ∃ final,
      (HystRound.new 0 (13421773 / 16777216)).hystRoundSeq [13 / 10, 3 / 2]
        = (List.replicate k 0
            ++ List.replicate ([(13 / 10 : ℚ), 3 / 2].length - k)
                (specRound ([(13 / 10 : ℚ), 3 / 2].getD k 0)), final) :=
  have hpair : ∀ a ∈ [(13 / 10 : ℚ), 3 / 2], ∀ b ∈ [(13 / 10 : ℚ), 3 / 2],
      |a - b| ≤ 13421773 / 16777216 - 1 / 2 := by
    intro a ha b hb
    simp only [List.mem_cons, List.mem_singleton, List.not_mem_nil, or_false] at ha hb
    rcases ha with rfl | rfl <;> rcases hb with rfl | rfl <;> norm_num [abs_le]
  have hr : ∀ s ∈ [(13 / 10 : ℚ), 3 / 2], isInt16 (specRound s) := by
    intro s hs
    simp only [List.mem_cons, List.mem_singleton, List.not_mem_nil, or_false] at hs
    rcases hs with rfl | rfl
    · rw [specRound_thirteen_tenths]; unfold isInt16; omega
    · rw [specRound_three_halves.1]; unfold isInt16; omega
  ⟨isFloat_08f, hpair, hr,
    dead_band 0 (13421773 / 16777216) [13 / 10, 3 / 2] isFloat_08f hpair hr⟩

/-! ## C11: bounded tracking error -/

/-- C11 as stated fails: from the stored value `1` with the `float` threshold
`0.8f` the `float` sample `0x1.999996p-3`, whose rounded value `0` fits, fails
the binary32 test, the step returns `1`, and `|1 - s|` is `2^-26` above
`max(t, 0.5) = t`. -/
theorem tracking_error_counterexample :
    ((HystRound.new 1 (13421773 / 16777216)).hystRound (13421771 / 67108864)
        = (1, HystRound.new 1 (13421773 / 16777216)) ∧
      max (13421773 / 16777216 : ℚ) (1 / 2) < |((1 : Int) : ℚ) - 13421771 / 67108864|) ∧
    ¬ (∀ (v : Int) (t s : ℚ), isInt16 v → isFloat t → isFloat s → isInt16 (specRound s) →
        |(((HystRound.new v t).hystRound s).1 : ℚ) - s| ≤ max t (1 / 2)) := by
  have hmax : max (13421773 / 16777216 : ℚ) (1 / 2)
      < |((1 : Int) : ℚ) - 13421771 / 67108864| := by
    rw [max_eq_left (by norm_num)]
    exact lt_abs_boundary
  refine ⟨⟨hystRound_boundary, hmax⟩, fun hall => ?_⟩
  have h := hall 1 (13421773 / 16777216) (13421771 / 67108864) (by unfold isInt16; omega)
    isFloat_08f isFloat_boundary (by rw [specRound_boundary]; unfold isInt16; omega)
  rw [hystRound_boundary] at h
  exact absurd h (not_le.mpr hmax)

/-- C11, amended: for every stored value `v`, every threshold `t` and every
sample `s` whose rounded value is an `int16_t`, the value `r` that `hystRound`
returns satisfies `|fl32 (r - s)| ≤ max(t, 0.5)`, the difference being computed
in binary32 as in the test; the exact `|r - s|` is below every `float` above
`max(t, 0.5)`. -/
theorem tracking_error (v : Int) (t s : ℚ) (hr : isInt16 (specRound s)) :
    |fl32 ((((HystRound.new v t).hystRound s).1 : ℚ) - s)| ≤ max t (1 / 2) ∧
    (∀ b, isFloat b → max t (1 / 2) < b →
      |(((HystRound.new v t).hystRound s).1 : ℚ) - s| < b) := by
  have hmain : |fl32 ((((HystRound.new v t).hystRound s).1 : ℚ) - s)| ≤ max t (1 / 2) := by
    by_cases hex : t < |fl32 ((v : ℚ) - s)|
    · rw [step_round v t s hex hr]
      exact le_trans (abs_fl32_le _ _ isFloat_one_half (abs_specRound_sub_le s))
        (le_max_right _ _)
    · rw [step_keep_of_test v t s (not_lt.mp hex)]
      exact le_trans (not_lt.mp hex) (le_max_left _ _)
  exact ⟨hmain, fun b hb hlt => abs_lt_of_abs_fl32_lt b _ hb (lt_of_le_of_lt hmain hlt)⟩

/-- The amended C11 from the state `(1, 0.8f)` at the sample `0x1.999996p-3`. -/
theorem tracking_error_witness :
    isInt16 (specRound (13421771 / 67108864)) ∧
    |fl32 ((((HystRound.new 1 (13421773 / 16777216)).hystRound
        (13421771 / 67108864)).1 : ℚ) - 13421771 / 67108864)|
      ≤ max (13421773 / 16777216) (1 / 2) :=
  have hr : isInt16 (specRound (13421771 / 67108864)) := by
    rw [specRound_boundary]; unfold isInt16; omega
  ⟨hr, (tracking_error 1 (13421773 / 16777216) (13421771 / 67108864) hr).1⟩

/-! ## C12: idempotence of the step -/

/-- C12: for every state (every stored value and every threshold, whatever
its sign or size) and every sample, a second call of `hystRound` with the
sample returns the value the first call returned and leaves the state the
first call left. -/
theorem hystRound_idempotent (self : HystRound) (s : ℚ) :
    (self.hystRound s).2.hystRound s = self.hystRound s :=
  hystRound_twice self (self.hystRound s).2 s (self.hystRound s).1 rfl

/-! ## C13: thresholds below one half -/

/-- C13: for every threshold `t < 0.5` (zero and negative thresholds
included), every stored value `v` and every sample `s` whose rounded value is
an `int16_t`, `hystRound` returns (and stores) the rounded value of `s`, half
away from zero. -/
theorem hystRound_below_half (v : Int) (t s : ℚ) (ht : t < 1 / 2)
    (hr : isInt16 (specRound s)) :
    (HystRound.new v t).hystRound s = (specRound s, HystRound.new (specRound s) t) := by
  by_cases hex : t < |fl32 ((v : ℚ) - s)|
  · exact step_round v t s hex hr
  · have hlt : |(v : ℚ) - s| < 1 / 2 :=
      abs_lt_of_abs_fl32_lt _ _ isFloat_one_half (lt_of_le_of_lt (not_lt.mp hex) ht)
    rw [specRound_eq_of_abs_lt v s hlt]
    exact step_keep_of_test v t s (not_lt.mp hex)

/-- C13 at the thresholds `0.3` and `-1`, from the stored value `1`, at the
sample `1.3`, whose rounded value is `1`. -/
theorem hystRound_below_half_witness :
    ((3 / 10 : ℚ) < 1 / 2 ∧ isInt16 (specRound (13 / 10)) ∧
      (HystRound.new 1 (3 / 10)).hystRound (13 / 10)
        = (specRound (13 / 10), HystRound.new (specRound (13 / 10)) (3 / 10))) ∧
    ((-1 : ℚ) < 1 / 2 ∧
      (HystRound.new 1 (-1)).hystRound (13 / 10)
        = (specRound (13 / 10), HystRound.new (specRound (13 / 10)) (-1))) :=
  have hr : isInt16 (specRound (13 / 10)) := by
    rw [specRound_thirteen_tenths]; unfold isInt16; omega
  ⟨⟨by norm_num, hr, hystRound_below_half 1 (3 / 10) (13 / 10) (by norm_num) hr⟩,
   ⟨by norm_num, hystRound_below_half 1 (-1) (13 / 10) (by norm_num) hr⟩⟩

/-! ## C14: monotonicity in the sample -/

/-- A positive rounded difference comes from a positive exact difference. -/
theorem pos_of_fl32_pos (d : ℚ) (h : 0 < fl32 d) : 0 < d := by
  by_contra hcon
  have := fl32_mono d 0 (not_lt.mp hcon)
  rw [fl32_zero] at this
  linarith

/-- A negative rounded difference comes from a negative exact difference. -/
theorem neg_of_fl32_neg (d : ℚ) (h : fl32 d < 0) : d < 0 := by
  by_contra hcon
  have := fl32_mono 0 d (not_lt.mp hcon)
  rw [fl32_zero] at this
  linarith

/-- C14: for every stored value `v`, every threshold `t` and all samples
`s1 ≤ s2` whose rounded values are `int16_t`, the value `hystRound` returns
for `s1` from the state `(v, t)` is at most the value it returns for `s2` from
the same state. -/
theorem hystRound_monotone (v : Int) (t s1 s2 : ℚ) (h : s1 ≤ s2)
    (hr1 : isInt16 (specRound s1)) (hr2 : isInt16 (specRound s2)) :
    ∃ r1 st1 r2 st2, (HystRound.new v t).hystRound s1 = (r1, st1) ∧
      (HystRound.new v t).hystRound s2 = (r2, st2) ∧ r1 ≤ r2 := by
  have hmono : fl32 ((v : ℚ) - s2) ≤ fl32 ((v : ℚ) - s1) := fl32_mono _ _ (by linarith)
  by_cases hex1 : t < |fl32 ((v : ℚ) - s1)| <;> by_cases hex2 : t < |fl32 ((v : ℚ) - s2)|
  · exact ⟨_, _, _, _, step_round v t s1 hex1 hr1, step_round v t s2 hex2 hr2,
      specRound_mono s1 s2 h⟩
  · -- `s1` is below the band around `v`, and `s2` inside it
    refine ⟨_, _, _, _, step_round v t s1 hex1 hr1,
      step_keep_of_test v t s2 (not_lt.mp hex2), ?_⟩
    have h2 := abs_le.mp (not_lt.mp hex2)
    have hpos : 0 < fl32 ((v : ℚ) - s1) := by
      rcases lt_abs.mp hex1 with h1 | h1 <;> linarith [h2.1, h2.2]
    have hs1 : s1 ≤ (v : ℚ) := by linarith [pos_of_fl32_pos _ hpos]
    have := specRound_mono s1 (v : ℚ) hs1
    rwa [specRound_intCast] at this
  · -- `s1` is inside the band around `v`, and `s2` above it
    refine ⟨_, _, _, _, step_keep_of_test v t s1 (not_lt.mp hex1),
      step_round v t s2 hex2 hr2, ?_⟩
    have h1 := abs_le.mp (not_lt.mp hex1)
    have hneg : fl32 ((v : ℚ) - s2) < 0 := by
      rcases lt_abs.mp hex2 with h2 | h2 <;> linarith [h1.1, h1.2]
    have hs2 : (v : ℚ) ≤ s2 := by linarith [neg_of_fl32_neg _ hneg]
    have := specRound_mono (v : ℚ) s2 hs2
    rwa [specRound_intCast] at this
  · exact ⟨_, _, _, _, step_keep_of_test v t s1 (not_lt.mp hex1),
      step_keep_of_test v t s2 (not_lt.mp hex2), le_rfl⟩

/-- C14 from the state `(0, 0.8)` at the samples `0.6 ≤ 0.9`: the results are
`0` and `1`. -/
theorem hystRound_monotone_witness :
    (6 / 10 : ℚ) ≤ 9 / 10 ∧ isInt16 (specRound (6 / 10)) ∧ isInt16 (specRound (9 / 10)) ∧
    ∃ r1 st1 r2 st2, (HystRound.new 0 (8 / 10)).hystRound (6 / 10) = (r1, st1) ∧
      (HystRound.new 0 (8 / 10)).hystRound (9 / 10) = (r2, st2) ∧ r1 ≤ r2 :=
  have h : (6 / 10 : ℚ) ≤ 9 / 10 := by norm_num
  have hr1 : isInt16 (specRound (6 / 10)) := by
    rw [specRound_six_tenths]; unfold isInt16; omega
  have hr2 : isInt16 (specRound (9 / 10)) := by
    rw [specRound_nine_tenths]; unfold isInt16; omega
  ⟨h, hr1, hr2, hystRound_monotone 0 (8 / 10) (6 / 10) (9 / 10) h hr1 hr2⟩

/-! ## C15: the 16-bit storage range -/

/-- C15 as stated fails: from the stored value `1` with the `float` threshold
`0.8f` the `float` sample `0x1.999996p-3` exceeds the threshold
(`|v - s| = t + 2^-26`) and its rounded value `0` is in range, and the value
stored and returned is `1`, because the difference computed in binary32 is the
threshold itself and the test fails. -/
theorem storage_range_counterexample :
    (isFloat (13421773 / 16777216) ∧ isFloat (13421771 / 67108864) ∧
      (13421773 / 16777216 : ℚ) < |((1 : Int) : ℚ) - 13421771 / 67108864| ∧
      specRound (13421771 / 67108864) = 0 ∧
      (HystRound.new 1 (13421773 / 16777216)).hystRound (13421771 / 67108864)
        = (1, HystRound.new 1 (13421773 / 16777216))) ∧
    ¬ (∀ (v : Int) (t s : ℚ), isInt16 v → isFloat t → isFloat s → t < |(v : ℚ) - s| →
        (((HystRound.new v t).hystRound s).1 = specRound s ↔ isInt16 (specRound s)) ∧
        ((HystRound.new v t).hystRound s).1 = toInt16 (specRound s)) := by
  refine ⟨boundary_facts, fun hall => ?_⟩
  have h := (hall 1 (13421773 / 16777216) (13421771 / 67108864)
    (by unfold isInt16; omega) isFloat_08f isFloat_boundary lt_abs_boundary).2
  rw [hystRound_boundary, specRound_boundary] at h
  simp [toInt16] at h

/-- C15, amended: for every state and every sample `s` on which the test of
`hystRound` succeeds (the difference computed in binary32, `fl32 (v - s)`,
exceeds the threshold in magnitude), the value stored and returned is the
rounded value of `s` reduced modulo `2^16` into `[-32768, 32767]`; it equals
the mathematical rounded value if and only if `-32768 ≤ round(s) ≤ 32767`. -/
theorem storage_range (v : Int) (t s : ℚ) (hex : t < |fl32 ((v : ℚ) - s)|) :
    ∃ r, (HystRound.new v t).hystRound s = (r, HystRound.new r t) ∧
      (r = specRound s ↔ isInt16 (specRound s)) ∧
      r = toInt16 (specRound s) ∧ isInt16 r ∧ (specRound s - r) % 65536 = 0 :=
  ⟨toInt16 (specRound s),
    hystRound_of_exceeds _ s ((exceeds_iff _ s).mpr hex),
    toInt16_eq_iff _, rfl, isInt16_toInt16 _, toInt16_congr _⟩

/-- The amended C15 from the state `(0, 0.8)` at the sample `40000`: the rounded
value `40000` is not an `int16_t`, and the step stores and returns
`-25536 = 40000 - 65536`. -/
theorem storage_range_witness :
    (8 / 10 : ℚ) < |fl32 (((0 : Int) : ℚ) - 40000)| ∧
    specRound 40000 = 40000 ∧ toInt16 40000 = -25536 ∧
    ∃ r, (HystRound.new 0 (8 / 10)).hystRound 40000 = (r, HystRound.new r (8 / 10)) ∧
      (r = specRound 40000 ↔ isInt16 (specRound 40000)) ∧
      r = toInt16 (specRound 40000) ∧ isInt16 r ∧ (specRound 40000 - r) % 65536 = 0 :=
  have hex : (8 / 10 : ℚ) < |fl32 (((0 : Int) : ℚ) - 40000)| :=
    lt_of_lt_of_le (by norm_num) (le_abs_fl32 1 _ isFloat_one (by norm_num [le_abs]))
  ⟨hex, specRound_40000, by unfold toInt16; omega, storage_range 0 (8 / 10) 40000 hex⟩

end Lumen
